import Mathlib

/-!
Shallow embedding of haithienld/tommy-pose-demo.

The repository has two source files:
* `posenet/pose_camera.py` — the pose-overlay script, whose self-contained
  logic is the FPS estimator `avg_fps_counter`, the skeleton renderer
  `draw_pose` over the fixed `EDGES` table, and the `shadow_text` helper;
* `streamming/client.py` — a camera-publishing loop.

Python floats (monotonic timestamps, keypoint coordinates, confidence
scores) are embedded as rationals `ℚ`; Python `int(...)` truncation toward
zero is `truncQ`.  The generator `avg_fps_counter` is embedded as explicit
state passing over the list of timestamps observed at its successive
advances.  SVG canvas mutation (`dwg.add`) is embedded as an accumulating
list of drawing primitives.
-/

namespace TommyPose

/-! ### FPS estimator (`avg_fps_counter` in `posenet/pose_camera.py`)

The generator keeps `window = collections.deque(maxlen=window_size)` and
`prev`, the previously seen monotonic timestamp.  On the first advance it
records the clock into `prev` and yields `0.0` without touching the window;
on each later advance it appends `curr - prev` to the deque (which evicts
its oldest entry once full) and yields `len(window) / sum(window)`. -/

/-- State of the `avg_fps_counter` generator between advances: the deque of
inter-call deltas and the previously observed timestamp. -/
structure FpsState where
  window : List ℚ
  prev : ℚ
deriving DecidableEq

/-- Appending to a `collections.deque(maxlen=N)`: push `d` on the right,
then discard from the left whatever exceeds capacity `N`. -/
def dequeAppend (N : ℕ) (w : List ℚ) (d : ℚ) : List ℚ :=
  (w ++ [d]).drop ((w ++ [d]).length - N)

/-- One advance of the generator after the first: read the clock value
`curr`, append the delta `curr - prev` to the window, remember `curr`, and
yield `len(window) / sum(window)`. -/
def fpsAdvance (N : ℕ) (s : FpsState) (curr : ℚ) : ℚ × FpsState :=
  let window := dequeAppend N s.window (curr - s.prev)
  (((window.length : ℚ)) / window.sum, ⟨window, curr⟩)

/-- Yields of all advances after the first, given the clock values those
advances observe. -/
def fpsGo (N : ℕ) (s : FpsState) : List ℚ → List ℚ
  | [] => []
  | t :: ts => (fpsAdvance N s t).1 :: fpsGo N (fpsAdvance N s t).2 ts

/-- The whole yield sequence of `avg_fps_counter(N)` when its advances
observe the monotonic-clock values `t₁, t₂, …` in order: the first advance
stores `t₁` and yields `0.0` without appending anything; advance `i > 1`
observes `tᵢ` and appends the delta `tᵢ - tᵢ₋₁`. -/
def avg_fps_counter (N : ℕ) : List ℚ → List ℚ
  | [] => []
  | t :: ts => 0 :: fpsGo N ⟨[], t⟩ ts

/-- Final generator state after a run of advances observing the given
clock values (starting from an already-initialised state). -/
def fpsRun (N : ℕ) (s : FpsState) : List ℚ → FpsState
  | [] => s
  | t :: ts => fpsRun N (fpsAdvance N s t).2 ts

/-- The inter-call deltas determined by a timestamp sequence:
`deltas [t₁, …, tₖ] = [t₂ - t₁, …, tₖ - tₖ₋₁]`. -/
def deltas (t : List ℚ) : List ℚ := List.zipWith (fun a b => a - b) t.tail t

/-- The window contents the spec predicts at the `i`-th append: the last
`min i N` of the first `i` deltas. -/
def windowSpec (N : ℕ) (ds : List ℚ) (i : ℕ) : List ℚ := (ds.take i).drop (i - N)

/-- The division `len(window) / sum(window)` performed by an advance after
the first raises Python's `ZeroDivisionError` exactly when the divisor
`sum(window)` is zero; the generator body contains no handler for it. -/
def fpsDivisionByZero (N : ℕ) (s : FpsState) (curr : ℚ) : Prop :=
  (dequeAppend N s.window (curr - s.prev)).sum = 0

theorem dequeAppend_length (N : ℕ) (w : List ℚ) (d : ℚ) :
    (dequeAppend N w d).length = min (w.length + 1) N := by
  simp [dequeAppend]
  omega

theorem dequeAppend_drop (N : ℕ) (l : List ℚ) (d : ℚ) :
    dequeAppend N (l.drop (l.length - N)) d = (l ++ [d]).drop ((l ++ [d]).length - N) := by
  unfold dequeAppend
  rw [show l.drop (l.length - N) ++ [d] = (l ++ [d]).drop (l.length - N) by
        rw [List.drop_append_of_le_length (by omega)]]
  rw [List.drop_drop]
  congr 1
  simp
  omega

theorem foldl_dequeAppend (N : ℕ) (ds : List ℚ) :
    ∀ l : List ℚ, List.foldl (dequeAppend N) (l.drop (l.length - N)) ds =
      (l ++ ds).drop ((l ++ ds).length - N) := by
  induction ds with
  | nil => intro l; simp
  | cons d ds ih =>
    intro l
    have h1 : List.foldl (dequeAppend N) (l.drop (l.length - N)) (d :: ds) =
        List.foldl (dequeAppend N) ((l ++ [d]).drop ((l ++ [d]).length - N)) ds := by
      rw [List.foldl_cons, dequeAppend_drop]
    rw [h1]
    have h2 := ih (l ++ [d])
    simpa using h2

theorem foldl_dequeAppend_nil (N : ℕ) (ds : List ℚ) :
    List.foldl (dequeAppend N) [] ds = ds.drop (ds.length - N) := by
  have h := foldl_dequeAppend N ds []
  simpa using h

theorem fpsGo_getElem (N : ℕ) :
    ∀ (ts : List ℚ) (w : List ℚ) (p : ℚ) (i : ℕ), i < ts.length →
      (fpsGo N ⟨w, p⟩ ts)[i]? =
        some ((((List.foldl (dequeAppend N) w
            ((List.zipWith (fun a b => a - b) ts (p :: ts)).take (i + 1))).length : ℚ)) /
          (List.foldl (dequeAppend N) w
            ((List.zipWith (fun a b => a - b) ts (p :: ts)).take (i + 1))).sum) := by
  intro ts
  induction ts with
  | nil => intro w p i hi; simp at hi
  | cons t ts ih =>
    intro w p i hi
    match i with
    | 0 =>
      simp [fpsGo, fpsAdvance]
    | Nat.succ j =>
      have hj : j < ts.length := by simpa using hi
      have := ih (dequeAppend N w (t - p)) t j hj
      simpa [fpsGo, fpsAdvance] using this

theorem fpsGo_length (N : ℕ) :
    ∀ (ts : List ℚ) (s : FpsState), (fpsGo N s ts).length = ts.length := by
  intro ts
  induction ts with
  | nil => intro s; simp [fpsGo]
  | cons t ts ih => intro s; simp [fpsGo, ih]

/-- C1: for every window capacity `N > 0` and strictly increasing clock
values, `avg_fps_counter N` yields `0` on its first advance, and the
`(i+2)`-nd advance (index `i+1` in the yield list) yields
`min (i+1) N / sum(window)`, where the window holds exactly the last
`min (i+1) N` of the first `i+1` inter-call deltas. -/
theorem avg_fps_counter_yields (N : ℕ) (hN : 0 < N) (t : List ℚ)
    (hmono : List.Chain' (fun a b => a < b) t) :
    (avg_fps_counter N t).length = t.length ∧
    (0 < t.length → (avg_fps_counter N t)[0]? = some 0) ∧
    (∀ i : ℕ, i + 1 < t.length →
      (avg_fps_counter N t)[i + 1]? =
        some (((min (i + 1) N : ℕ) : ℚ) / (windowSpec N (deltas t) (i + 1)).sum) ∧
      (windowSpec N (deltas t) (i + 1)).length = min (i + 1) N) := by
  match t with
  | [] => refine ⟨rfl, by simp, by simp⟩
  | t₁ :: ts =>
    refine ⟨by simp [avg_fps_counter, fpsGo_length], by simp [avg_fps_counter], ?_⟩
    intro i hi
    have hits : i < ts.length := by simpa using hi
    have hd : deltas (t₁ :: ts) = List.zipWith (fun a b => a - b) ts (t₁ :: ts) := by
      simp [deltas]
    have hdl : (deltas (t₁ :: ts)).length = ts.length := by
      rw [hd]
      simp [List.length_zipWith]
    have hwin : List.foldl (dequeAppend N) []
        ((List.zipWith (fun a b => a - b) ts (t₁ :: ts)).take (i + 1)) =
        windowSpec N (deltas (t₁ :: ts)) (i + 1) := by
      rw [foldl_dequeAppend_nil, windowSpec, hd]
      congr 1
      rw [List.length_take]
      have : (List.zipWith (fun a b => a - b) ts (t₁ :: ts)).length = ts.length := by
        simp [List.length_zipWith]
      omega
    have hlen : (windowSpec N (deltas (t₁ :: ts)) (i + 1)).length = min (i + 1) N := by
      rw [windowSpec, List.length_drop, List.length_take]
      omega
    constructor
    · have hget := fpsGo_getElem N ts [] t₁ i hits
      have : (avg_fps_counter N (t₁ :: ts))[i + 1]? = (fpsGo N ⟨[], t₁⟩ ts)[i]? := by
        simp [avg_fps_counter]
      rw [this, hget, hwin, hlen]
    · exact hlen

/-- C1 witness: the theorem applied to capacity `2` and clock values
`0, 1, 3, 6`, so the yields are `0, 1/1, 2/(1+2), 2/(2+3)`. -/
theorem avg_fps_counter_yields_witness :
    (avg_fps_counter 2 [0, 1, 3, 6]).length = 4 ∧
    (avg_fps_counter 2 [0, 1, 3, 6])[2]? =
      some (((min 2 2 : ℕ) : ℚ) / (windowSpec 2 (deltas [0, 1, 3, 6]) 2).sum) := by
  have h := avg_fps_counter_yields 2 (by norm_num) [0, 1, 3, 6]
    (by simp [List.chain'_cons]; norm_num)
  exact ⟨h.1, ((h.2.2) 1 (by norm_num)).1⟩

/-- C2: the estimator's window never exceeds the capacity `N` after any
number of advances, and appending to a full deque evicts the oldest
(leftmost) entry. -/
theorem fps_window_capacity (N : ℕ) (hN : 0 < N) :
    (∀ (t₁ : ℚ) (ts : List ℚ), (fpsRun N ⟨[], t₁⟩ ts).window.length ≤ N) ∧
    (∀ (w : List ℚ) (d : ℚ), w.length = N → dequeAppend N w d = w.tail ++ [d]) := by
  constructor
  · intro t₁ ts
    suffices h : ∀ (ts : List ℚ) (s : FpsState), s.window.length ≤ N →
        (fpsRun N s ts).window.length ≤ N by
      exact h ts ⟨[], t₁⟩ (by simp)
    intro ts
    induction ts with
    | nil => intro s hs; simpa [fpsRun] using hs
    | cons t ts ih =>
      intro s hs
      apply ih
      simp [fpsAdvance, dequeAppend_length]
  · intro w d hw
    unfold dequeAppend
    have hlen : (w ++ [d]).length - N = 1 := by simp [hw]
    rw [hlen]
    cases w with
    | nil => simp at hw; omega
    | cons x w' => simp

/-- C2 witness: capacity `2`, three advances after the first; the final
window drops the oldest delta, and a full deque evicts FIFO. -/
theorem fps_window_capacity_witness :
    (fpsRun 2 ⟨[], 0⟩ [1, 3, 6]).window.length ≤ 2 ∧
    dequeAppend 2 [1, 2] 5 = [2, 5] := by
  have h := fps_window_capacity 2 (by norm_num)
  exact ⟨h.1 0 [1, 3, 6], h.2 [1, 2] 5 (by norm_num)⟩

theorem sum_eq_zero_iff_of_nonneg (w : List ℚ) (hw : ∀ d ∈ w, 0 ≤ d) :
    w.sum = 0 ↔ ∀ d ∈ w, d = 0 := by
  induction w with
  | nil => simp
  | cons a w ih =>
    have ha : 0 ≤ a := hw a (by simp)
    have hrest : ∀ d ∈ w, 0 ≤ d := fun d hd => hw d (by simp [hd])
    have hsum : 0 ≤ w.sum := List.sum_nonneg hrest
    simp only [List.sum_cons, List.mem_cons]
    constructor
    · intro h
      have ha0 : a = 0 := by linarith
      have hs0 : w.sum = 0 := by linarith
      intro d hd
      rcases hd with rfl | hd
      · exact ha0
      · exact (ih hrest).mp hs0 d hd
    · intro h
      have ha0 : a = 0 := h a (Or.inl rfl)
      have hs0 : w.sum = 0 := (ih hrest).mpr fun d hd => h d (Or.inr hd)
      rw [ha0, hs0, add_zero]

/-- C7: when the window entries are non-negative (as they are under a
monotonic clock) and the new observation is not earlier than the previous
one, an advance after the first divides by zero exactly when every delta
in the (just updated) window is zero. -/
theorem fps_division_by_zero_iff (N : ℕ) (s : FpsState) (curr : ℚ)
    (hw : ∀ d ∈ s.window, 0 ≤ d) (hc : s.prev ≤ curr) :
    fpsDivisionByZero N s curr ↔
      ∀ d ∈ dequeAppend N s.window (curr - s.prev), d = 0 := by
  unfold fpsDivisionByZero
  apply sum_eq_zero_iff_of_nonneg
  intro d hd
  have hsub : List.Sublist (dequeAppend N s.window (curr - s.prev))
      (s.window ++ [curr - s.prev]) := List.drop_sublist _ _
  have hmem : d ∈ s.window ++ [curr - s.prev] := hsub.mem hd
  rcases List.mem_append.mp hmem with h | h
  · exact hw d h
  · simp at h
    rw [h]
    linarith

/-- C7 witness: two advances observing the identical timestamp `1`: the
appended delta is `0`, the window is `[0]`, and the advance divides by
zero. -/
theorem fps_division_by_zero_witness :
    fpsDivisionByZero 30 ⟨[], 1⟩ 1 := by
  apply (fps_division_by_zero_iff 30 ⟨[], 1⟩ 1 (by simp) (le_refl 1)).mpr
  intro d hd
  simpa [dequeAppend] using hd

/-! ### Skeleton renderer (`draw_pose`, `EDGES`, `shadow_text` in
`posenet/pose_camera.py`)

A keypoint carries `yx` (note: `yx[0]` is the y coordinate, `yx[1]` the x
coordinate) and a confidence `score`.  A pose is its dict of keypoints,
embedded as the association list the dict iterates over (its labels are
unique, which theorems take as a `Nodup` hypothesis where needed).  The
SVG canvas accumulates primitives in the order of the `dwg.add` calls. -/

/-- One detected keypoint: position `yx` (y first, as in the source) and
confidence score. -/
structure Keypoint where
  yx : ℚ × ℚ
  score : ℚ
deriving DecidableEq

/-- A drawing primitive added to the SVG canvas. -/
inductive Prim where
  | circle (center : ℤ × ℤ) (r : ℕ) (fill : String) (fillOpacity : ℚ) (stroke : String)
  | line (first second : ℤ × ℤ) (stroke : String) (strokeWidth : ℕ)
  | text (insert : ℚ × ℚ) (content : String) (fill : String) (fontSize : ℚ)
deriving DecidableEq

/-- Whether a primitive is a circle. -/
def Prim.isCircle : Prim → Bool
  | .circle _ _ _ _ _ => true
  | _ => false

/-- Whether a primitive is a line. -/
def Prim.isLine : Prim → Bool
  | .line _ _ _ _ => true
  | _ => false

/-- The fixed skeleton edge table `EDGES` of `pose_camera.py`, in source
order. -/
def EDGES : List (String × String) :=
  [("nose", "left eye"),
   ("nose", "right eye"),
   ("nose", "left ear"),
   ("nose", "right ear"),
   ("left ear", "left eye"),
   ("right ear", "right eye"),
   ("left eye", "right eye"),
   ("left shoulder", "right shoulder"),
   ("left shoulder", "left elbow"),
   ("left shoulder", "left hip"),
   ("right shoulder", "right elbow"),
   ("right shoulder", "right hip"),
   ("left elbow", "left wrist"),
   ("right elbow", "right wrist"),
   ("left hip", "right hip"),
   ("left hip", "left knee"),
   ("right hip", "right knee"),
   ("left knee", "left ankle"),
   ("right knee", "right ankle")]

/-- Python `int(...)` applied to a rational: truncation toward zero. -/
def truncQ (q : ℚ) : ℤ := q.num.tdiv q.den

/-- Lookup in the `xys` dict: `label in xys` / `xys[label]`. -/
def assocFind {α : Type} (l : String) : List (String × α) → Option α
  | [] => none
  | (a, p) :: rest => if l = a then some p else assocFind l rest

/-- The display position of a keypoint: offset by the inference box origin
and scaled to source coordinates, truncated to integers
(`kp_x = int((keypoint.yx[1] - box_x) * scale_x)` and the analogue for y);
the pair is `(kp_x, kp_y)`, as stored in `xys` and used as circle center. -/
def keypointXY (ox oy sx sy : ℚ) (kp : Keypoint) : ℤ × ℤ :=
  (truncQ ((kp.yx.2 - ox) * sx), truncQ ((kp.yx.1 - oy) * sy))

/-- Body of the first loop of `draw_pose` for one `(label, keypoint)`
item: skip it when `keypoint.score < threshold`, otherwise record its
display position in `xys` and add the circle to the canvas. -/
def drawPoseStep (ox oy sx sy threshold : ℚ) (color : String)
    (acc : List (String × (ℤ × ℤ)) × List Prim) (lk : String × Keypoint) :
    List (String × (ℤ × ℤ)) × List Prim :=
  if lk.2.score < threshold then acc
  else
    (acc.1 ++ [(lk.1, keypointXY ox oy sx sy lk.2)],
     acc.2 ++ [Prim.circle (keypointXY ox oy sx sy lk.2) 5 "cyan" lk.2.score color])

/-- Body of the second loop of `draw_pose` for one edge `(a, b)`: skip it
when either label is missing from `xys`, otherwise add the connecting line
to the canvas. -/
def drawEdgeStep (xys : List (String × (ℤ × ℤ))) (color : String)
    (prims : List Prim) (ab : String × String) : List Prim :=
  match assocFind ab.1 xys, assocFind ab.2 xys with
  | some p, some q => prims ++ [Prim.line p q color 2]
  | _, _ => prims

/-- The `draw_pose` procedure: compute the scale factors, run the keypoint
loop (building `xys` and emitting circles), then run the edge loop over
`EDGES` (emitting lines onto the same canvas). -/
def draw_pose (pose : List (String × Keypoint)) (src_size : ℚ × ℚ)
    (inference_box : ℚ × ℚ × ℚ × ℚ) (color : String) (threshold : ℚ) : List Prim :=
  let ox := inference_box.1
  let oy := inference_box.2.1
  let bw := inference_box.2.2.1
  let bh := inference_box.2.2.2
  let sx := src_size.1 / bw
  let sy := src_size.2 / bh
  let fc := pose.foldl (drawPoseStep ox oy sx sy threshold color) ([], [])
  EDGES.foldl (drawEdgeStep fc.1 color) fc.2

/-- The `xys` mapping after the keypoint loop: display positions of the
keypoints at or above threshold, in pose iteration order. -/
def xysOf (ox oy sx sy threshold : ℚ) (pose : List (String × Keypoint)) :
    List (String × (ℤ × ℤ)) :=
  pose.filterMap fun lk =>
    if lk.2.score < threshold then none
    else some (lk.1, keypointXY ox oy sx sy lk.2)

/-- The circles emitted by the keypoint loop, in pose iteration order. -/
def circlesOf (ox oy sx sy threshold : ℚ) (color : String)
    (pose : List (String × Keypoint)) : List Prim :=
  pose.filterMap fun lk =>
    if lk.2.score < threshold then none
    else some (Prim.circle (keypointXY ox oy sx sy lk.2) 5 "cyan" lk.2.score color)

/-- The line the edge loop emits for one edge, if any. -/
def edgeLineOf (xys : List (String × (ℤ × ℤ))) (color : String)
    (ab : String × String) : Option Prim :=
  match assocFind ab.1 xys, assocFind ab.2 xys with
  | some p, some q => some (Prim.line p q color 2)
  | _, _ => none

/-- The lines emitted by the edge loop, in `EDGES` order. -/
def linesOf (xys : List (String × (ℤ × ℤ))) (color : String) : List Prim :=
  EDGES.filterMap (edgeLineOf xys color)

/-- The `shadow_text` helper: a black copy of the text offset by `(1, 1)`,
then a white copy at the true position. -/
def shadow_text (x y : ℚ) (content : String) (font_size : ℚ) : List Prim :=
  [Prim.text (x + 1, y + 1) content "black" font_size,
   Prim.text (x, y) content "white" font_size]

theorem foldl_drawPoseStep (ox oy sx sy threshold : ℚ) (color : String) :
    ∀ (pose : List (String × Keypoint)) (acc : List (String × (ℤ × ℤ)) × List Prim),
      pose.foldl (drawPoseStep ox oy sx sy threshold color) acc =
        (acc.1 ++ xysOf ox oy sx sy threshold pose,
         acc.2 ++ circlesOf ox oy sx sy threshold color pose) := by
  intro pose
  induction pose with
  | nil => intro acc; simp [xysOf, circlesOf]
  | cons lk pose ih =>
    intro acc
    rw [List.foldl_cons, ih]
    by_cases h : lk.2.score < threshold
    · simp [drawPoseStep, h, xysOf, circlesOf]
    · simp [drawPoseStep, h, xysOf, circlesOf]

theorem foldl_drawEdgeStep (xys : List (String × (ℤ × ℤ))) (color : String) :
    ∀ (edges : List (String × String)) (prims : List Prim),
      edges.foldl (drawEdgeStep xys color) prims =
        prims ++ edges.filterMap (edgeLineOf xys color) := by
  intro edges
  induction edges with
  | nil => intro prims; simp
  | cons ab edges ih =>
    intro prims
    rw [List.foldl_cons, ih, List.filterMap_cons]
    rcases h1 : assocFind ab.1 xys with _ | p <;>
      rcases h2 : assocFind ab.2 xys with _ | q <;>
        simp [drawEdgeStep, edgeLineOf, h1, h2]

/-- Decomposition of `draw_pose`: circles of the qualifying keypoints in
pose order, then lines of the qualifying edges in `EDGES` order. -/
theorem draw_pose_eq (pose : List (String × Keypoint)) (sw sh ox oy bw bh : ℚ)
    (color : String) (threshold : ℚ) :
    draw_pose pose (sw, sh) (ox, oy, bw, bh) color threshold =
      circlesOf ox oy (sw / bw) (sh / bh) threshold color pose ++
        linesOf (xysOf ox oy (sw / bw) (sh / bh) threshold pose) color := by
  simp [draw_pose, linesOf, foldl_drawPoseStep, foldl_drawEdgeStep]

theorem assocFind_mem {α : Type} (l : String) :
    ∀ (xs : List (String × α)) (p : α), assocFind l xs = some p → (l, p) ∈ xs := by
  intro xs
  induction xs with
  | nil => intro p h; simp [assocFind] at h
  | cons x xs ih =>
    intro p h
    obtain ⟨a, q⟩ := x
    by_cases ha : l = a
    · simp [assocFind, ha] at h
      simp [ha, h]
    · simp [assocFind, ha] at h
      exact List.mem_cons_of_mem _ (ih p h)

theorem assocFind_eq_none {α : Type} (l : String) :
    ∀ xs : List (String × α), l ∉ xs.map Prod.fst → assocFind l xs = none := by
  intro xs
  induction xs with
  | nil => intro _; rfl
  | cons x xs ih =>
    intro h
    simp only [List.map_cons, List.mem_cons] at h
    push_neg at h
    simp [assocFind, h.1, ih h.2]

theorem xysOf_keys_sublist (ox oy sx sy thr : ℚ) (pose : List (String × Keypoint)) :
    List.Sublist ((xysOf ox oy sx sy thr pose).map Prod.fst) (pose.map Prod.fst) := by
  induction pose with
  | nil => simp [xysOf]
  | cons hd rest ih =>
    by_cases h : hd.2.score < thr
    · simp only [xysOf, List.filterMap_cons, h, if_pos, List.map_cons]
      exact ih.cons _
    · simp only [xysOf, List.filterMap_cons, h, if_neg, not_false_iff, List.map_cons]
      exact ih.cons₂ _

theorem assocFind_xysOf_some (ox oy sx sy thr : ℚ) :
    ∀ (pose : List (String × Keypoint)) (l : String) (kp : Keypoint),
      (pose.map Prod.fst).Nodup → (l, kp) ∈ pose → ¬ kp.score < thr →
      assocFind l (xysOf ox oy sx sy thr pose) = some (keypointXY ox oy sx sy kp) := by
  intro pose
  induction pose with
  | nil => intro l kp _ hmem _; simp at hmem
  | cons hd rest ih =>
    intro l kp hnd hmem hsc
    obtain ⟨a, k⟩ := hd
    simp only [List.map_cons, List.nodup_cons] at hnd
    rcases List.mem_cons.mp hmem with heq | hmem'
    · injection heq with hl hk
      subst hl
      subst hk
      simp [xysOf, List.filterMap_cons, hsc, assocFind]
    · have hlk : l ∈ rest.map Prod.fst := List.mem_map_of_mem Prod.fst hmem'
      have hne : l ≠ a := fun h => hnd.1 (h ▸ hlk)
      by_cases hk : k.score < thr
      · simp only [xysOf, List.filterMap_cons, hk, if_pos]
        exact ih l kp hnd.2 hmem' hsc
      · simp only [xysOf, List.filterMap_cons, hk, if_neg, not_false_iff]
        simp only [assocFind, hne, if_neg, not_false_iff]
        exact ih l kp hnd.2 hmem' hsc

theorem assocFind_xysOf_none (ox oy sx sy thr : ℚ) :
    ∀ (pose : List (String × Keypoint)) (l : String) (kp : Keypoint),
      (pose.map Prod.fst).Nodup → (l, kp) ∈ pose → kp.score < thr →
      assocFind l (xysOf ox oy sx sy thr pose) = none := by
  intro pose
  induction pose with
  | nil => intro l kp _ hmem _; simp at hmem
  | cons hd rest ih =>
    intro l kp hnd hmem hsc
    obtain ⟨a, k⟩ := hd
    simp only [List.map_cons, List.nodup_cons] at hnd
    rcases List.mem_cons.mp hmem with heq | hmem'
    · injection heq with hl hk
      subst hl
      subst hk
      simp only [xysOf, List.filterMap_cons, hsc, if_pos]
      apply assocFind_eq_none
      intro hl
      exact hnd.1 ((xysOf_keys_sublist ox oy sx sy thr rest).mem hl)
    · have hlk : l ∈ rest.map Prod.fst := List.mem_map_of_mem Prod.fst hmem'
      have hne : l ≠ a := fun h => hnd.1 (h ▸ hlk)
      by_cases hk : k.score < thr
      · simp only [xysOf, List.filterMap_cons, hk, if_pos]
        exact ih l kp hnd.2 hmem' hsc
      · simp only [xysOf, List.filterMap_cons, hk, if_neg, not_false_iff]
        simp only [assocFind, hne, if_neg, not_false_iff]
        exact ih l kp hnd.2 hmem' hsc

theorem mem_xysOf (ox oy sx sy thr : ℚ) (pose : List (String × Keypoint))
    (l : String) (p : ℤ × ℤ) (h : (l, p) ∈ xysOf ox oy sx sy thr pose) :
    ∃ kp : Keypoint, (l, kp) ∈ pose ∧ ¬ kp.score < thr ∧ p = keypointXY ox oy sx sy kp := by
  obtain ⟨lk, hmem, heq⟩ := List.mem_filterMap.mp h
  by_cases hs : lk.2.score < thr
  · simp [hs] at heq
  · simp [hs] at heq
    refine ⟨lk.2, ?_, hs, heq.2.symm⟩
    have hlk : lk = (l, lk.2) := by
      rw [← heq.1]
    rwa [hlk] at hmem

theorem assocFind_perm {α : Type} (a : String) :
    ∀ {xs ys : List (String × α)}, xs.Perm ys → (xs.map Prod.fst).Nodup →
      assocFind a xs = assocFind a ys := by
  intro xs ys hperm
  induction hperm with
  | nil => intro _; rfl
  | cons x hp ih =>
    intro hnd
    simp only [List.map_cons, List.nodup_cons] at hnd
    obtain ⟨x1, x2⟩ := x
    by_cases h : a = x1
    · simp [assocFind, h]
    · simp [assocFind, h, ih hnd.2]
  | swap x y l =>
    intro hnd
    obtain ⟨x1, x2⟩ := x
    obtain ⟨y1, y2⟩ := y
    simp only [List.map_cons, List.nodup_cons, List.mem_cons] at hnd
    have hxy : y1 ≠ x1 := fun h => hnd.1 (Or.inl h)
    by_cases h1 : a = y1 <;> by_cases h2 : a = x1
    · exact absurd (h1.symm.trans h2) hxy
    · simp [assocFind, h1, h2, hxy]
    · simp [assocFind, h1, h2, Ne.symm hxy]
    · simp [assocFind, h1, h2]
  | trans h1 h2 ih1 ih2 =>
    intro hnd
    rw [ih1 hnd, ih2 (((h1.map Prod.fst).nodup_iff).mp hnd)]

theorem linesOf_perm_invariant (ox oy sx sy thr : ℚ) (color : String)
    (pose₁ pose₂ : List (String × Keypoint)) (hperm : pose₁.Perm pose₂)
    (hnd : (pose₁.map Prod.fst).Nodup) :
    linesOf (xysOf ox oy sx sy thr pose₁) color =
      linesOf (xysOf ox oy sx sy thr pose₂) color := by
  have hxys : (xysOf ox oy sx sy thr pose₁).Perm (xysOf ox oy sx sy thr pose₂) :=
    hperm.filterMap _
  have hndx : ((xysOf ox oy sx sy thr pose₁).map Prod.fst).Nodup :=
    hnd.sublist (xysOf_keys_sublist ox oy sx sy thr pose₁)
  have hfind : ∀ l : String, assocFind l (xysOf ox oy sx sy thr pose₁) =
      assocFind l (xysOf ox oy sx sy thr pose₂) :=
    fun l => assocFind_perm l hxys hndx
  unfold linesOf
  congr 1
  funext ab
  unfold edgeLineOf
  rw [hfind ab.1, hfind ab.2]

theorem mem_circlesOf (ox oy sx sy thr : ℚ) (color : String)
    (pose : List (String × Keypoint)) (pr : Prim)
    (h : pr ∈ circlesOf ox oy sx sy thr color pose) : pr.isCircle = true := by
  obtain ⟨lk, _, heq⟩ := List.mem_filterMap.mp h
  by_cases hs : lk.2.score < thr
  · simp [hs] at heq
  · simp [hs] at heq
    rw [← heq]
    rfl

theorem mem_linesOf (xys : List (String × (ℤ × ℤ))) (color : String) (pr : Prim)
    (h : pr ∈ linesOf xys color) : pr.isLine = true := by
  unfold linesOf at h
  obtain ⟨ab, _, heq⟩ := List.mem_filterMap.mp h
  unfold edgeLineOf at heq
  match h1 : assocFind ab.1 xys, h2 : assocFind ab.2 xys with
  | some p, some q => rw [h1, h2] at heq; simp at heq; rw [← heq]; rfl
  | some p, none => rw [h1, h2] at heq; simp at heq
  | none, some q => rw [h1, h2] at heq; simp at heq
  | none, none => rw [h1, h2] at heq; simp at heq

set_option maxHeartbeats 1600000 in
/-- C3: every keypoint at or above threshold is mapped to the display
position `((raw_x - box_x) * (sw / bw), (raw_y - box_y) * (sh / bh))`
truncated to integers — recorded in `xys` and used as the center of its
circle; with box `(0,0,640,480)` and source `(640,480)` the raw keypoint
`(x,y) = (100,200)` maps to `(100,200)`, and with box `(0,0,320,240)` the
raw keypoint `(50,50)` maps to `(100,100)`. -/
theorem draw_pose_keypoint_mapping (pose : List (String × Keypoint))
    (sw sh ox oy bw bh : ℚ) (color : String) (threshold : ℚ)
    (hbw : bw ≠ 0) (hbh : bh ≠ 0) (l : String) (kp : Keypoint)
    (hnd : (pose.map Prod.fst).Nodup) (hmem : (l, kp) ∈ pose)
    (hsc : ¬ kp.score < threshold) :
    (assocFind l (xysOf ox oy (sw / bw) (sh / bh) threshold pose) =
      some (truncQ ((kp.yx.2 - ox) * (sw / bw)), truncQ ((kp.yx.1 - oy) * (sh / bh))) ∧
    Prim.circle (truncQ ((kp.yx.2 - ox) * (sw / bw)), truncQ ((kp.yx.1 - oy) * (sh / bh)))
        5 "cyan" kp.score color ∈ draw_pose pose (sw, sh) (ox, oy, bw, bh) color threshold) ∧
    draw_pose [("nose", ⟨(200, 100), 1⟩)] (640, 480) (0, 0, 640, 480) "yellow" (1/5) =
      [Prim.circle (100, 200) 5 "cyan" 1 "yellow"] ∧
    draw_pose [("nose", ⟨(50, 50), 1⟩)] (640, 480) (0, 0, 320, 240) "yellow" (1/5) =
      [Prim.circle (100, 100) 5 "cyan" 1 "yellow"] := by
  refine ⟨⟨assocFind_xysOf_some ox oy (sw / bw) (sh / bh) threshold pose l kp hnd hmem hsc,
      ?_⟩, ?_, ?_⟩
  · rw [draw_pose_eq]
    apply List.mem_append_left
    exact List.mem_filterMap.mpr ⟨(l, kp), hmem, by simp [hsc, keypointXY]⟩
  · rw [draw_pose_eq]
    norm_num [circlesOf, linesOf, xysOf, keypointXY, truncQ, EDGES, edgeLineOf, assocFind,
      List.filterMap_cons]
    simp +decide
  · rw [draw_pose_eq]
    norm_num [circlesOf, linesOf, xysOf, keypointXY, truncQ, EDGES, edgeLineOf, assocFind,
      List.filterMap_cons]
    simp +decide

/-- C3 witness: the mapping theorem applied to a one-keypoint pose with
raw position `(x,y) = (100,200)` and the identity box. -/
theorem draw_pose_keypoint_mapping_witness :
    (assocFind "nose"
        (xysOf 0 0 (640 / 640) (480 / 480) (1/5) [("nose", ⟨(200, 100), 1⟩)]) =
      some (truncQ ((100 - 0) * (640 / 640)), truncQ ((200 - 0) * (480 / 480))) ∧
    Prim.circle (truncQ ((100 - 0) * (640 / 640)), truncQ ((200 - 0) * (480 / 480)))
        5 "cyan" 1 "yellow" ∈
      draw_pose [("nose", ⟨(200, 100), 1⟩)] (640, 480) (0, 0, 640, 480) "yellow" (1/5)) ∧
    draw_pose [("nose", ⟨(200, 100), 1⟩)] (640, 480) (0, 0, 640, 480) "yellow" (1/5) =
      [Prim.circle (100, 200) 5 "cyan" 1 "yellow"] ∧
    draw_pose [("nose", ⟨(50, 50), 1⟩)] (640, 480) (0, 0, 320, 240) "yellow" (1/5) =
      [Prim.circle (100, 100) 5 "cyan" 1 "yellow"] :=
  draw_pose_keypoint_mapping [("nose", ⟨(200, 100), 1⟩)] 640 480 0 0 640 480 "yellow"
    (1/5) (by norm_num) (by norm_num) "nose" ⟨(200, 100), 1⟩ (by simp) (by simp)
    (by norm_num)

/-- C4: the renderer emits exactly one circle (radius 5, fill opacity the
confidence score, stroke the given color) per keypoint at or above
threshold — the circle block is precisely the `filterMap` of the pose by
the threshold test — and a keypoint below threshold is recorded in no
`xys` entry, so no edge touching its label emits a line. -/
theorem draw_pose_circles_exactly_qualifying (pose : List (String × Keypoint))
    (sw sh ox oy bw bh : ℚ) (color : String) (threshold : ℚ)
    (hnd : (pose.map Prod.fst).Nodup) :
    draw_pose pose (sw, sh) (ox, oy, bw, bh) color threshold =
      (pose.filterMap fun lk =>
        if lk.2.score < threshold then none
        else some (Prim.circle (keypointXY ox oy (sw / bw) (sh / bh) lk.2)
          5 "cyan" lk.2.score color)) ++
        linesOf (xysOf ox oy (sw / bw) (sh / bh) threshold pose) color ∧
    ∀ l kp, (l, kp) ∈ pose → kp.score < threshold →
      assocFind l (xysOf ox oy (sw / bw) (sh / bh) threshold pose) = none ∧
      ∀ ab ∈ EDGES, ab.1 = l ∨ ab.2 = l →
        edgeLineOf (xysOf ox oy (sw / bw) (sh / bh) threshold pose) color ab = none := by
  refine ⟨draw_pose_eq pose sw sh ox oy bw bh color threshold, ?_⟩
  intro l kp hmem hsc
  have hnone : assocFind l (xysOf ox oy (sw / bw) (sh / bh) threshold pose) = none :=
    assocFind_xysOf_none ox oy (sw / bw) (sh / bh) threshold pose l kp hnd hmem hsc
  refine ⟨hnone, ?_⟩
  intro ab _ hab
  unfold edgeLineOf
  rcases hab with h | h
  · rw [h, hnone]
  · rw [h, hnone]
    rcases assocFind ab.1 (xysOf ox oy (sw / bw) (sh / bh) threshold pose) with _ | p
    · rfl
    · rfl

/-- C4 witness: a pose whose only keypoint scores below threshold yields
no primitive, no `xys` entry and no edge line. -/
theorem draw_pose_circles_exactly_qualifying_witness :
    draw_pose [("nose", ⟨(10, 10), 1/10⟩)] (640, 480) (0, 0, 640, 480) "yellow" (1/5) =
      ([("nose", (⟨(10, 10), 1/10⟩ : Keypoint))].filterMap fun lk =>
        if lk.2.score < (1/5 : ℚ) then none
        else some (Prim.circle (keypointXY 0 0 (640 / 640) (480 / 480) lk.2)
          5 "cyan" lk.2.score "yellow")) ++
        linesOf (xysOf 0 0 (640 / 640) (480 / 480) (1/5)
          [("nose", ⟨(10, 10), 1/10⟩)]) "yellow" ∧
    ∀ l kp, (l, kp) ∈ [(("nose" : String), (⟨(10, 10), 1/10⟩ : Keypoint))] →
      kp.score < (1/5 : ℚ) →
      assocFind l (xysOf 0 0 (640 / 640) (480 / 480) (1/5)
        [("nose", ⟨(10, 10), 1/10⟩)]) = none ∧
      ∀ ab ∈ EDGES, ab.1 = l ∨ ab.2 = l →
        edgeLineOf (xysOf 0 0 (640 / 640) (480 / 480) (1/5)
          [("nose", ⟨(10, 10), 1/10⟩)]) "yellow" ab = none :=
  draw_pose_circles_exactly_qualifying [("nose", ⟨(10, 10), 1/10⟩)]
    640 480 0 0 640 480 "yellow" (1/5) (by simp)

set_option maxHeartbeats 1600000 in
/-- C5: `EDGES` is a fixed table of exactly 19 label pairs; the renderer
emits, after the circles, exactly the lines of the edges whose two labels
are recorded, in `EDGES` order; the lines do not depend on the pose's
iteration order (any permutation of a duplicate-free pose gives the same
lines); and the pose with only "nose" and "left eye" above threshold
yields exactly 2 circles and 1 line. -/
theorem edges_fixed_and_lines_in_order (pose pose₂ : List (String × Keypoint))
    (sw sh ox oy bw bh : ℚ) (color : String) (threshold : ℚ)
    (hnd : (pose.map Prod.fst).Nodup) (hperm : pose.Perm pose₂) :
    EDGES.length = 19 ∧
    draw_pose pose (sw, sh) (ox, oy, bw, bh) color threshold =
      circlesOf ox oy (sw / bw) (sh / bh) threshold color pose ++
        EDGES.filterMap
          (edgeLineOf (xysOf ox oy (sw / bw) (sh / bh) threshold pose) color) ∧
    linesOf (xysOf ox oy (sw / bw) (sh / bh) threshold pose) color =
      linesOf (xysOf ox oy (sw / bw) (sh / bh) threshold pose₂) color ∧
    draw_pose [("nose", ⟨(10, 10), 1⟩), ("left eye", ⟨(20, 20), 1⟩)]
        (640, 480) (0, 0, 640, 480) "yellow" (1/5) =
      [Prim.circle (10, 10) 5 "cyan" 1 "yellow",
       Prim.circle (20, 20) 5 "cyan" 1 "yellow",
       Prim.line (10, 10) (20, 20) "yellow" 2] := by
  refine ⟨rfl, draw_pose_eq pose sw sh ox oy bw bh color threshold, ?_, ?_⟩
  · exact linesOf_perm_invariant ox oy (sw / bw) (sh / bh) threshold color
      pose pose₂ hperm hnd
  · rw [draw_pose_eq]
    norm_num [circlesOf, linesOf, xysOf, keypointXY, truncQ, EDGES, edgeLineOf, assocFind,
      List.filterMap_cons]
    simp +decide

/-- C5 witness: the theorem applied to the two-keypoint pose and its
reversal. -/
theorem edges_fixed_and_lines_in_order_witness :
    EDGES.length = 19 ∧
    draw_pose [("nose", ⟨(10, 10), 1⟩), ("left eye", ⟨(20, 20), 1⟩)]
        (640, 480) (0, 0, 640, 480) "yellow" (1/5) =
      circlesOf 0 0 (640 / 640) (480 / 480) (1/5) "yellow"
          [("nose", ⟨(10, 10), 1⟩), ("left eye", ⟨(20, 20), 1⟩)] ++
        EDGES.filterMap
          (edgeLineOf (xysOf 0 0 (640 / 640) (480 / 480) (1/5)
            [("nose", ⟨(10, 10), 1⟩), ("left eye", ⟨(20, 20), 1⟩)]) "yellow") ∧
    linesOf (xysOf 0 0 (640 / 640) (480 / 480) (1/5)
        [("nose", ⟨(10, 10), 1⟩), ("left eye", ⟨(20, 20), 1⟩)]) "yellow" =
      linesOf (xysOf 0 0 (640 / 640) (480 / 480) (1/5)
        [("left eye", ⟨(20, 20), 1⟩), ("nose", ⟨(10, 10), 1⟩)]) "yellow" ∧
    draw_pose [("nose", ⟨(10, 10), 1⟩), ("left eye", ⟨(20, 20), 1⟩)]
        (640, 480) (0, 0, 640, 480) "yellow" (1/5) =
      [Prim.circle (10, 10) 5 "cyan" 1 "yellow",
       Prim.circle (20, 20) 5 "cyan" 1 "yellow",
       Prim.line (10, 10) (20, 20) "yellow" 2] :=
  edges_fixed_and_lines_in_order
    [("nose", ⟨(10, 10), 1⟩), ("left eye", ⟨(20, 20), 1⟩)]
    [("left eye", ⟨(20, 20), 1⟩), ("nose", ⟨(10, 10), 1⟩)]
    640 480 0 0 640 480 "yellow" (1/5) (by simp) (List.Perm.swap _ _ _)

/-- C6: with identical inputs the renderer produces the identical
primitive sequence — all circles of qualifying keypoints in pose order
followed by all lines of qualifying edges in `EDGES` order — and the
embedding is a pure function of its inputs, which it does not mutate. -/
theorem draw_pose_deterministic_order (pose : List (String × Keypoint))
    (sw sh ox oy bw bh : ℚ) (color : String) (threshold : ℚ) :
    draw_pose pose (sw, sh) (ox, oy, bw, bh) color threshold =
      draw_pose pose (sw, sh) (ox, oy, bw, bh) color threshold ∧
    draw_pose pose (sw, sh) (ox, oy, bw, bh) color threshold =
      circlesOf ox oy (sw / bw) (sh / bh) threshold color pose ++
        linesOf (xysOf ox oy (sw / bw) (sh / bh) threshold pose) color ∧
    (∀ pr ∈ circlesOf ox oy (sw / bw) (sh / bh) threshold color pose,
      pr.isCircle = true) ∧
    (∀ pr ∈ linesOf (xysOf ox oy (sw / bw) (sh / bh) threshold pose) color,
      pr.isLine = true) :=
  ⟨rfl, draw_pose_eq pose sw sh ox oy bw bh color threshold,
    fun pr hpr => mem_circlesOf ox oy (sw / bw) (sh / bh) threshold color pose pr hpr,
    fun pr hpr => mem_linesOf _ color pr hpr⟩

/-- C9: `shadow_text` emits exactly two text primitives, first the black
copy offset by `(1, 1)` from the true position, then the white copy at the
true position; it is a pure function of `(x, y, text, font size)`. -/
theorem shadow_text_black_then_white (x y : ℚ) (content : String) (fs : ℚ) :
    shadow_text x y content fs =
      [Prim.text (x + 1, y + 1) content "black" fs,
       Prim.text (x, y) content "white" fs] ∧
    (shadow_text x y content fs).length = 2 :=
  ⟨rfl, rfl⟩

/-- C10: both endpoints of every emitted line are the recorded display
positions of keypoints whose circles were emitted in the same call: each
endpoint is the center of some emitted circle. -/
theorem line_endpoints_have_circles (pose : List (String × Keypoint))
    (sw sh ox oy bw bh : ℚ) (color : String) (threshold : ℚ) :
    ∀ (p q : ℤ × ℤ) (st : String) (w : ℕ),
      Prim.line p q st w ∈ draw_pose pose (sw, sh) (ox, oy, bw, bh) color threshold →
      (∃ fo, Prim.circle p 5 "cyan" fo color ∈
        draw_pose pose (sw, sh) (ox, oy, bw, bh) color threshold) ∧
      (∃ fo, Prim.circle q 5 "cyan" fo color ∈
        draw_pose pose (sw, sh) (ox, oy, bw, bh) color threshold) := by
  intro p q st w hmem
  rw [draw_pose_eq] at hmem
  rcases List.mem_append.mp hmem with hc | hl
  · have := mem_circlesOf ox oy (sw / bw) (sh / bh) threshold color pose _ hc
    simp [Prim.isCircle] at this
  · unfold linesOf at hl
    obtain ⟨ab, _, heq⟩ := List.mem_filterMap.mp hl
    unfold edgeLineOf at heq
    set xys := xysOf ox oy (sw / bw) (sh / bh) threshold pose with hxys
    match h1 : assocFind ab.1 xys, h2 : assocFind ab.2 xys with
    | some p', some q' =>
      rw [h1, h2] at heq
      simp at heq
      obtain ⟨hp, hq, hst, hw⟩ := heq
      subst hp
      subst hq
      constructor
      · obtain ⟨kp, hkmem, hksc, hkeq⟩ :=
          mem_xysOf ox oy (sw / bw) (sh / bh) threshold pose ab.1 p'
            (assocFind_mem ab.1 xys p' h1)
        refine ⟨kp.score, ?_⟩
        rw [draw_pose_eq]
        apply List.mem_append_left
        exact List.mem_filterMap.mpr ⟨(ab.1, kp), hkmem, by simp [hksc, ← hkeq]⟩
      · obtain ⟨kp, hkmem, hksc, hkeq⟩ :=
          mem_xysOf ox oy (sw / bw) (sh / bh) threshold pose ab.2 q'
            (assocFind_mem ab.2 xys q' h2)
        refine ⟨kp.score, ?_⟩
        rw [draw_pose_eq]
        apply List.mem_append_left
        exact List.mem_filterMap.mpr ⟨(ab.2, kp), hkmem, by simp [hksc, ← hkeq]⟩
    | some p', none => rw [h1, h2] at heq; simp at heq
    | none, some q' => rw [h1, h2] at heq; simp at heq
    | none, none => rw [h1, h2] at heq; simp at heq

set_option maxHeartbeats 1600000 in
/-- C10 witness: in the two-keypoint render, the single emitted line's
endpoints `(10,10)` and `(20,20)` both carry circles. -/
theorem line_endpoints_have_circles_witness :
    (∃ fo, Prim.circle (10, 10) 5 "cyan" fo "yellow" ∈
      draw_pose [("nose", ⟨(10, 10), 1⟩), ("left eye", ⟨(20, 20), 1⟩)]
        (640, 480) (0, 0, 640, 480) "yellow" (1/5)) ∧
    (∃ fo, Prim.circle (20, 20) 5 "cyan" fo "yellow" ∈
      draw_pose [("nose", ⟨(10, 10), 1⟩), ("left eye", ⟨(20, 20), 1⟩)]
        (640, 480) (0, 0, 640, 480) "yellow" (1/5)) := by
  apply line_endpoints_have_circles
    [("nose", ⟨(10, 10), 1⟩), ("left eye", ⟨(20, 20), 1⟩)]
    640 480 0 0 640 480 "yellow" (1/5) (10, 10) (20, 20) "yellow" 2
  have hconc : draw_pose [("nose", ⟨(10, 10), 1⟩), ("left eye", ⟨(20, 20), 1⟩)]
      (640, 480) (0, 0, 640, 480) "yellow" (1/5) =
      [Prim.circle (10, 10) 5 "cyan" 1 "yellow",
       Prim.circle (20, 20) 5 "cyan" 1 "yellow",
       Prim.line (10, 10) (20, 20) "yellow" 2] := by
    rw [draw_pose_eq]
    norm_num [circlesOf, linesOf, xysOf, keypointXY, truncQ, EDGES, edgeLineOf, assocFind,
      List.filterMap_cons]
    simp +decide
  rw [hconc]
  simp

/-! ### Camera streaming loop (`streamming/client.py`)

The active code is `while camera.isOpened(): try: <read/resize/encode/send>
except KeyboardInterrupt: camera.release(); cv2.destroyAllWindows(); break`.
Each loop iteration is driven by the environment: the `isOpened()` check can
come back false, and the body can complete, raise `KeyboardInterrupt`, or
raise some other exception (e.g. `cv2.error` from `resize` after a failed
`read`).  Only `KeyboardInterrupt` is caught; any other exception
propagates out of the loop uncaught, and the `isOpened()`-false exit simply
falls off the loop.  The embedding consumes one environment event per
iteration and reports how the loop exited together with how many times
`camera.release()` ran. -/

/-- Environment behavior of one iteration of the `client.py` loop. -/
inductive ClientEvent where
  | closedCheck
  | frameOk
  | interrupt
  | raiseOther
deriving DecidableEq

/-- How the `client.py` loop terminated. -/
inductive ClientExit where
  | cameraClosed
  | interrupted
  | uncaught
deriving DecidableEq

/-- Run of the `client.py` loop over a trace of environment events:
`some (exit, releases)` once the loop terminates (with the number of
`camera.release()` calls made by the script), `none` while it is still
running.  `closedCheck` ends the loop at the `while` test with no release;
`interrupt` takes the `except KeyboardInterrupt` path, which releases the
camera once and breaks; `raiseOther` propagates an uncaught exception out
of the loop with no release. -/
def clientLoop : List ClientEvent → Option (ClientExit × ℕ)
  | [] => none
  | ClientEvent.closedCheck :: _ => some (ClientExit.cameraClosed, 0)
  | ClientEvent.frameOk :: rest => clientLoop rest
  | ClientEvent.interrupt :: _ => some (ClientExit.interrupted, 1)
  | ClientEvent.raiseOther :: _ => some (ClientExit.uncaught, 0)

/-- C8 counterexample: a camera read failure that raises (a
non-`KeyboardInterrupt` exception in the loop body) exits the loop with
zero `camera.release()` calls, not exactly one as the claim requires. -/
theorem client_release_counterexample :
    clientLoop [ClientEvent.raiseOther] = some (ClientExit.uncaught, 0) ∧ (0 : ℕ) ≠ 1 := by
  exact ⟨rfl, by decide⟩

/-- C8 amended: the capture resource is released exactly once on the
`KeyboardInterrupt` exit path (the only one the `except` clause catches),
and released zero times on every other exit — an uncaught exception from
the body, or the `isOpened()` check turning false. -/
theorem client_release_only_on_interrupt :
    ∀ (evs : List ClientEvent) (ex : ClientExit) (r : ℕ),
      clientLoop evs = some (ex, r) →
      (ex = ClientExit.interrupted → r = 1) ∧ (ex ≠ ClientExit.interrupted → r = 0) := by
  intro evs
  induction evs with
  | nil => intro ex r h; simp [clientLoop] at h
  | cons e rest ih =>
    intro ex r h
    cases e with
    | closedCheck =>
      simp [clientLoop] at h
      obtain ⟨rfl, rfl⟩ := h
      exact ⟨fun hx => absurd hx (by simp), fun _ => rfl⟩
    | frameOk => exact ih ex r h
    | interrupt =>
      simp [clientLoop] at h
      obtain ⟨rfl, rfl⟩ := h
      exact ⟨fun _ => rfl, fun hx => absurd rfl hx⟩
    | raiseOther =>
      simp [clientLoop] at h
      obtain ⟨rfl, rfl⟩ := h
      exact ⟨fun hx => absurd hx (by simp), fun _ => rfl⟩

/-- C8 witness: a run that completes one frame and is then interrupted
releases the camera exactly once. -/
theorem client_release_only_on_interrupt_witness :
    clientLoop [ClientEvent.frameOk, ClientEvent.interrupt] =
      some (ClientExit.interrupted, 1) ∧ (1 : ℕ) = 1 :=
  ⟨rfl, (client_release_only_on_interrupt [ClientEvent.frameOk, ClientEvent.interrupt]
    ClientExit.interrupted 1 rfl).1 rfl⟩

end TommyPose
